import Mathlib

/-!
Verification of the sales-insights POST handler (`src/unnamed/part_000`).

The handler is embedded shallowly:
* JavaScript numbers are modelled by `JSNum`: either `NaN` or a rational
  value (arithmetic on the handler's inputs is exact at this abstraction).
* JSON field values that reach the validation checks are modelled by
  `JSValue` (undefined / null / boolean / number / string), so that JS
  truthiness and the `typeof`-based checks can be stated faithfully.
* The external generative-text call is a parameter
  `gen : String → Except String String`.
* `POST` mirrors the handler: array-shape check, per-record validation
  and aggregation in one pass with early return, best-category reduce
  with the `['', 0]` sentinel, prompt construction, external call,
  response shaping.
* The object `categorySales` records insertion order, but every
  observation of it (`Object.entries` for the reduce, `JSON.stringify`
  for the prompt) enumerates own property keys in ECMAScript order:
  canonical array-index keys (such as `"2"`) first, in ascending numeric
  order, then the remaining string keys in insertion order. `entriesOf`
  models that enumeration.
-/

namespace NodeAI

/-- A JavaScript number: `NaN`, or an (exact) rational value. -/
inductive JSNum where
  | nan : JSNum
  | num : ℚ → JSNum
deriving DecidableEq, Repr

/-- JS `+` on numbers: `NaN` is absorbing, otherwise exact addition. -/
def JSNum.add : JSNum → JSNum → JSNum
  | .nan, _ => .nan
  | _, .nan => .nan
  | .num a, .num b => .num (a + b)

/-- JS `<` on numbers: every comparison with `NaN` is `false`. -/
def JSNum.lt : JSNum → JSNum → Bool
  | .num a, .num b => decide (a < b)
  | _, _ => false

/-- JS `x || 0` applied to a stored number: `NaN` (falsy) becomes `0`,
every other number is kept (`0 || 0` is again `0`). -/
def JSNum.orZero : JSNum → JSNum
  | .nan => .num 0
  | .num q => .num q

/-- JS division of a number by an array length (a positive natural in the
handler; division by `0` cannot occur because empty arrays are rejected). -/
def jsDivNat : JSNum → Nat → JSNum
  | .nan, _ => .nan
  | .num _, 0 => .nan
  | .num q, n + 1 => .num (q / ((n : ℚ) + 1))

/-- A JSON field value as seen by the validation checks. -/
inductive JSValue where
  | undefined : JSValue
  | null : JSValue
  | bool : Bool → JSValue
  | numVal : JSNum → JSValue
  | str : String → JSValue
deriving DecidableEq, Repr

/-- JS truthiness: `undefined`, `null`, `false`, `0`, `NaN` and `""` are
falsy; everything else is truthy. -/
def JSValue.truthy : JSValue → Bool
  | .undefined => false
  | .null => false
  | .bool b => b
  | .numVal .nan => false
  | .numVal (.num q) => decide (q ≠ 0)
  | .str s => decide (s ≠ "")

/-- `typeof v === 'number'`. -/
def JSValue.isNumber : JSValue → Bool
  | .numVal _ => true
  | _ => false

/-- `v < 0` as evaluated by the handler (only ever reached when `v` is a
number; `NaN < 0` is `false`). -/
def JSValue.ltZero : JSValue → Bool
  | .numVal (.num q) => decide (q < 0)
  | _ => false

/-- Decimal digits of the fractional part of `x` (for `0 ≤ x < 1`),
up to the given number of digits, stopping when the expansion ends. -/
def fracDigits : Nat → ℚ → String
  | 0, _ => ""
  | n + 1, x =>
    if x = 0 then ""
    else
      let d : Nat := (Rat.floor (x * 10)).toNat
      toString d ++ fracDigits n (x * 10 - (d : ℚ))

/-- Decimal rendering of a rational, at the JS-number abstraction: exact
when the expansion terminates within 17 digits (the shortest-round-trip
digit bound for doubles), truncated there otherwise. -/
def ratToString (q : ℚ) : String :=
  let s := if q < 0 then "-" else ""
  let a := if q < 0 then -q else q
  let ip : Nat := (Rat.floor a).toNat
  let fp := a - (ip : ℚ)
  if fp = 0 then s ++ toString ip
  else s ++ toString ip ++ "." ++ fracDigits 17 fp

/-- JS `ToString` of a number. -/
def JSNum.toJSString : JSNum → String
  | .nan => "NaN"
  | .num q => ratToString q

/-- JSON serialization of a number: `NaN` serializes as `null`. -/
def JSNum.toJSONString : JSNum → String
  | .nan => "null"
  | .num q => ratToString q

/-- Two-digit zero-padded rendering of a natural below 100. -/
def padTwo (n : Nat) : String :=
  if n < 10 then "0" ++ toString n else toString n

/-- `Number.prototype.toFixed(2)` on a nonnegative rational: the integer
`n` with `n / 100` closest to `x`, larger `n` on ties. -/
def fixed2 (x : ℚ) : String :=
  let n : Nat := (Rat.floor (x * 100 + 1 / 2)).toNat
  toString (n / 100) ++ "." ++ padTwo (n % 100)

/-- `toFixed(2)` on a JS number: `NaN` renders as `"NaN"`; a negative
number is rendered by prefixing `"-"` to the rendering of its negation. -/
def JSNum.toFixed2 : JSNum → String
  | .nan => "NaN"
  | .num q => if q < 0 then "-" ++ fixed2 (-q) else fixed2 q

/-- JS property-key conversion (`ToString`) of the value used to index
`categorySales`. -/
def JSValue.toKey : JSValue → String
  | .undefined => "undefined"
  | .null => "null"
  | .bool true => "true"
  | .bool false => "false"
  | .numVal n => n.toJSString
  | .str s => s

/-- Numeric value of a decimal digit character. -/
def digitVal (c : Char) : Nat := c.toNat - 48

/-- Whether a character is a decimal digit (`0`–`9`). -/
def isDigitChar (c : Char) : Bool :=
  decide (48 ≤ c.toNat) && decide (c.toNat ≤ 57)

/-- Value of a decimal digit string. -/
def digitsVal (cs : List Char) : Nat :=
  cs.foldl (fun n c => 10 * n + digitVal c) 0

/-- Numeric value of a property key made of decimal digits. -/
def keyNum (s : String) : Nat := digitsVal s.toList

/-- ECMAScript "array index" property key: the canonical decimal string
(no leading zero except `"0"` itself) of an integer below `2 ^ 32 - 1`. -/
def isArrayIndex (s : String) : Bool :=
  decide (s.toList ≠ []) && s.toList.all isDigitChar &&
    (decide (s.toList = [Char.ofNat 48]) ||
      decide (s.toList.head? ≠ some (Char.ofNat 48))) &&
    decide (keyNum s < 4294967295)

/-- Insert an entry into a list sorted by ascending numeric key value. -/
def insertByKeyNum {α : Type} (p : String × α) : List (String × α) → List (String × α)
  | [] => [p]
  | q :: rest =>
    if keyNum p.1 ≤ keyNum q.1 then p :: q :: rest
    else q :: insertByKeyNum p rest

/-- Sort entries by ascending numeric key value (insertion sort). -/
def sortByKeyNum {α : Type} : List (String × α) → List (String × α)
  | [] => []
  | p :: rest => insertByKeyNum p (sortByKeyNum rest)

/-- ECMAScript own-property enumeration order of an insertion-ordered
object: array-index keys in ascending numeric order first, then the
remaining keys in insertion order. This is the order `Object.entries`
returns and `JSON.stringify` serializes. -/
def entriesOf {α : Type} (l : List (String × α)) : List (String × α) :=
  sortByKeyNum (l.filter (fun p => isArrayIndex p.1)) ++
    l.filter (fun p => !isArrayIndex p.1)

/-- One element of the request body: the `category` and `amount` fields
of a record, each an arbitrary JSON value (the TypeScript annotation
`SaleRecord[]` is not checked at runtime). -/
structure RawRecord where
  category : JSValue
  amount : JSValue
deriving DecidableEq, Repr

/-- The handler's per-record validation test
`!sale.category || typeof sale.amount !== 'number' || sale.amount < 0`. -/
def invalidRecord (r : RawRecord) : Bool :=
  !r.category.truthy || !r.amount.isNumber || r.amount.ltZero

/-- The object key under which a record's amount is accumulated. -/
def RawRecord.keyOf (r : RawRecord) : String :=
  r.category.toKey

/-- The record's amount as a JS number (only used after validation has
established that the field is a number). -/
def RawRecord.amountNum (r : RawRecord) : JSNum :=
  match r.amount with
  | .numVal n => n
  | _ => .nan

/-- `categorySales[sale.category] = (categorySales[sale.category] || 0) + sale.amount`
on an insertion-ordered object: an existing key keeps its position, a new
key is appended. -/
def updateCategory : List (String × JSNum) → String → JSNum → List (String × JSNum)
  | [], k, a => [(k, JSNum.add (JSNum.num 0) a)]
  | (k0, v) :: rest, k, a =>
    if k0 = k then (k0, JSNum.add v.orZero a) :: rest
    else (k0, v) :: updateCategory rest k a

/-- The handler's single pass over the records: validation with early
return (`none` is the 400 "Invalid sale record" outcome) and accumulation
of `totalSales` and `categorySales`. -/
def processRecords : List RawRecord → JSNum → List (String × JSNum) → Option (JSNum × List (String × JSNum))
  | [], total, cs => some (total, cs)
  | r :: rest, total, cs =>
    if invalidRecord r then none
    else processRecords rest (total.add r.amountNum) (updateCategory cs r.keyOf r.amountNum)

/-- `Object.entries(categorySales).reduce((max, entry) => entry[1] > max[1] ? entry : max, ['', 0])`:
the reduce runs over the enumeration order of the object's keys. -/
def bestCategory (entries : List (String × JSNum)) : String × JSNum :=
  (entriesOf entries).foldl (fun m e => if JSNum.lt m.2 e.2 then e else m) ("", JSNum.num 0)

/-- The `Insights` object of the handler. -/
structure Insights where
  totalSales : JSNum
  averageSale : JSNum
  categorySales : List (String × JSNum)
  bestPerformingCategory : String
deriving DecidableEq, Repr

/-- The insights computed for a request body, or `none` when some record
fails validation. -/
def insightsOf (records : List RawRecord) : Option Insights :=
  match processRecords records (JSNum.num 0) [] with
  | none => none
  | some (total, cs) =>
    some ⟨total, jsDivNat total records.length, cs, (bestCategory cs).1⟩

/-- Lowercase hexadecimal digit character. -/
def hexDigitChar (n : Nat) : Char :=
  if n < 10 then Char.ofNat (48 + n) else Char.ofNat (87 + n)

/-- Escaping of a character inside a JSON string literal: quote,
backslash, the named control escapes `\b \t \n \f \r`, `\u00XX` for the
remaining control characters, and every other character verbatim. -/
def escapeJSONChar (c : Char) : String :=
  if c = Char.ofNat 34 then "\\\""
  else if c = Char.ofNat 92 then "\\\\"
  else if c = Char.ofNat 8 then "\\b"
  else if c = Char.ofNat 9 then "\\t"
  else if c = Char.ofNat 10 then "\\n"
  else if c = Char.ofNat 12 then "\\f"
  else if c = Char.ofNat 13 then "\\r"
  else if c.toNat < 32 then
    "\\u00" ++ String.singleton (hexDigitChar (c.toNat / 16)) ++
      String.singleton (hexDigitChar (c.toNat % 16))
  else String.singleton c

/-- Escaping of a JSON string literal body. -/
def escapeJSON (s : String) : String :=
  String.join (s.toList.map escapeJSONChar)

/-- `JSON.stringify(categorySales, null, 2)`: entries are serialized in
the object's own-property enumeration order. -/
def jsonStringify2 (cs : List (String × JSNum)) : String :=
  match entriesOf cs with
  | [] => "\x7b\x7d"
  | es =>
    "\x7b\n"
      ++ String.intercalate ",\n"
          (es.map (fun p => "  \"" ++ escapeJSON p.1 ++ "\": " ++ p.2.toJSONString))
      ++ "\n\x7d"

/-- The template-literal prompt built from the insights. -/
def aiPrompt (ins : Insights) : String :=
  "\n      Based on the sales data, here are some key insights:\n      - Total sales: $"
    ++ ins.totalSales.toFixed2
    ++ "\n      - Average sales per transaction: $"
    ++ ins.averageSale.toFixed2
    ++ "\n      - Best performing product category: "
    ++ ins.bestPerformingCategory
    ++ "\n      - Breakdown per category: "
    ++ jsonStringify2 ins.categorySales
    ++ "\n\n      Summarize this data in a business-friendly tone.\n    "

/-- Body of a JSON response: a 200 success payload or an error object. -/
inductive RespBody where
  | success : Insights → String → RespBody
  | failure : String → RespBody
deriving DecidableEq, Repr

/-- An HTTP response: status code and JSON body. -/
structure Response where
  status : Nat
  body : RespBody
deriving DecidableEq, Repr

/-- The parsed request body: a JSON array of records, or any non-array
JSON value. -/
inductive Body where
  | arr : List RawRecord → Body
  | nonArray : Body

/-- The POST handler, parameterized by the external generative-text call
`gen` (the only outside interaction; an `Except.error` is a raised
error caught by the handler's `catch`). -/
def POST (gen : String → Except String String) : Body → Response
  | .nonArray => ⟨400, .failure "Invalid input: Expected an array of sales records"⟩
  | .arr records =>
    if records.length = 0 then
      ⟨400, .failure "Invalid input: Expected an array of sales records"⟩
    else
      match insightsOf records with
      | none => ⟨400, .failure "Invalid sale record"⟩
      | some insights =>
        match gen (aiPrompt insights) with
        | .error _ => ⟨500, .failure "Internal Server Error"⟩
        | .ok summary => ⟨200, .success insights summary⟩

/-! ### Specification-side vocabulary (exact rational views of the data) -/

/-- The rational value of a record's amount (`0` for the non-number shapes
that validation rejects). -/
def amountQ (r : RawRecord) : ℚ :=
  match r.amount with
  | .numVal (.num q) => q
  | _ => 0

/-- A record of the shape the spec calls a valid `SaleRecord`: a non-empty
string category and a (non-`NaN`) number amount `≥ 0`. -/
def validSale (r : RawRecord) : Bool :=
  match r.category, r.amount with
  | .str s, .numVal (.num q) => decide (s ≠ "") && decide (0 ≤ q)
  | _, _ => false

/-- Exact sum of the amounts of a list of records. -/
def sumQ (records : List RawRecord) : ℚ :=
  (records.map amountQ).sum

/-- Exact sum of the amounts of the records whose category key is `k`. -/
def catSumQ (records : List RawRecord) (k : String) : ℚ :=
  ((records.filter (fun r => r.keyOf == k)).map amountQ).sum

/-- Add `a` to key `k` of a rational association list, keeping the key's
position; a new key is appended. -/
def bumpQ : List (String × ℚ) → String → ℚ → List (String × ℚ)
  | [], k, a => [(k, a)]
  | (k0, v) :: rest, k, a =>
    if k0 = k then (k0, v + a) :: rest
    else (k0, v) :: bumpQ rest k a

/-- Value of key `k` in a rational association list (`0` when absent). -/
def lookQ : List (String × ℚ) → String → ℚ
  | [], _ => 0
  | (k0, v) :: rest, k => if k0 = k then v else lookQ rest k

/-- One record's contribution to the rational category table. -/
def stepCS (acc : List (String × ℚ)) (r : RawRecord) : List (String × ℚ) :=
  bumpQ acc r.keyOf (amountQ r)

/-- The rational category-sums table of a list of records. -/
def csQ (records : List RawRecord) : List (String × ℚ) :=
  records.foldl stepCS []

/-- View a rational association list as a JS-number one. -/
def mapValND (l : List (String × ℚ)) : List (String × JSNum) :=
  l.map (fun p => (p.1, JSNum.num p.2))

/-- Distinct elements of `xs` in order of first occurrence, continuing
from an already-collected prefix `acc`. -/
def firstSeenFrom (acc : List String) (xs : List String) : List String :=
  xs.foldl (fun ks x => if x ∈ ks then ks else ks ++ [x]) acc

/-- Distinct elements of `xs` in order of first occurrence. -/
def firstSeen (xs : List String) : List String :=
  firstSeenFrom [] xs

/-- Index of the first occurrence of `k` in a list (length when absent). -/
def firstIdx : List String → String → Nat
  | [], _ => 0
  | x :: xs, k => if x = k then 0 else firstIdx xs k + 1

/-- One step of the best-category reduce, at the rational level. -/
def pickMax (m e : String × ℚ) : String × ℚ :=
  if m.2 < e.2 then e else m

/-- The best-category reduce at the rational level: the fold runs over
the enumeration order, with the `("", 0)` sentinel of the source. -/
def bestQ (l : List (String × ℚ)) : String × ℚ :=
  (entriesOf l).foldl pickMax ("", 0)

/-! ### Validation lemmas -/

theorem validSale_shape {r : RawRecord} (h : validSale r = true) :
    ∃ s q, r.category = JSValue.str s ∧ s ≠ "" ∧
      r.amount = JSValue.numVal (JSNum.num q) ∧ 0 ≤ q := by
  obtain ⟨c, a⟩ := r
  cases c <;> cases a <;> simp [validSale] at h
  rename_i s n
  cases n with
  | nan => simp [validSale] at h
  | num q =>
    simp [validSale] at h
    exact ⟨s, q, rfl, h.1, rfl, h.2⟩

theorem valid_not_invalid {r : RawRecord} (h : validSale r = true) :
    invalidRecord r = false := by
  obtain ⟨s, q, hc, hs, ha, hq⟩ := validSale_shape h
  simp [invalidRecord, hc, ha, JSValue.truthy, JSValue.isNumber, JSValue.ltZero, hs, not_lt.2 hq]

theorem amountNum_of_valid {r : RawRecord} (h : validSale r = true) :
    r.amountNum = JSNum.num (amountQ r) := by
  obtain ⟨s, q, hc, hs, ha, hq⟩ := validSale_shape h
  simp [RawRecord.amountNum, amountQ, ha]

theorem amountQ_nonneg_of_valid {r : RawRecord} (h : validSale r = true) :
    0 ≤ amountQ r := by
  obtain ⟨s, q, hc, hs, ha, hq⟩ := validSale_shape h
  simpa [amountQ, ha] using hq

/-! ### The aggregation pass -/

theorem updateCategory_mapValND (l : List (String × ℚ)) (k : String) (a : ℚ) :
    updateCategory (mapValND l) k (JSNum.num a) = mapValND (bumpQ l k a) := by
  induction l with
  | nil => simp [updateCategory, bumpQ, mapValND, JSNum.add]
  | cons p rest ih =>
    obtain ⟨k0, v⟩ := p
    by_cases hk : k0 = k
    · simp [updateCategory, bumpQ, mapValND, hk, JSNum.orZero, JSNum.add]
    · simp [updateCategory, bumpQ, mapValND, hk] at ih ⊢
      exact ih

theorem processRecords_valid :
    ∀ (records : List RawRecord), (∀ r ∈ records, validSale r = true) →
    ∀ (t : ℚ) (l : List (String × ℚ)),
      processRecords records (JSNum.num t) (mapValND l) =
        some (JSNum.num (t + sumQ records), mapValND (records.foldl stepCS l)) := by
  intro records
  induction records with
  | nil => intro _ t l; simp [processRecords, sumQ]
  | cons r rest ih =>
    intro hval t l
    have hr : validSale r = true := hval r (List.mem_cons_self r rest)
    have hrest : ∀ x ∈ rest, validSale x = true :=
      fun x hx => hval x (List.mem_cons_of_mem r hx)
    have h1 : invalidRecord r = false := valid_not_invalid hr
    have h2 : r.amountNum = JSNum.num (amountQ r) := amountNum_of_valid hr
    simp only [processRecords, h1, Bool.false_eq_true, if_false, h2, JSNum.add,
      updateCategory_mapValND, List.foldl_cons, stepCS]
    rw [ih hrest (t + amountQ r) (bumpQ l r.keyOf (amountQ r))]
    have : t + amountQ r + sumQ rest = t + sumQ (r :: rest) := by
      simp [sumQ, add_assoc]
    rw [this]

theorem processRecords_eq_none_iff :
    ∀ (records : List RawRecord) (t : JSNum) (cs : List (String × JSNum)),
      processRecords records t cs = none ↔ ∃ r ∈ records, invalidRecord r = true := by
  intro records
  induction records with
  | nil => intro t cs; simp [processRecords]
  | cons r rest ih =>
    intro t cs
    by_cases hr : invalidRecord r = true
    · constructor
      · intro _
        exact ⟨r, List.mem_cons_self r rest, hr⟩
      · intro _
        simp [processRecords, hr]
    · have hr' : invalidRecord r = false := by
        cases h : invalidRecord r
        · rfl
        · exact absurd h hr
      simp only [processRecords, hr', Bool.false_eq_true, if_false]
      rw [ih]
      constructor
      · rintro ⟨x, hx, hinv⟩
        exact ⟨x, List.mem_cons_of_mem r hx, hinv⟩
      · rintro ⟨x, hx, hinv⟩
        rcases List.mem_cons.mp hx with h | h
        · subst h; exact absurd hinv hr
        · exact ⟨x, h, hinv⟩

theorem csQ_of_valid (records : List RawRecord)
    (hval : ∀ r ∈ records, validSale r = true) :
    processRecords records (JSNum.num 0) [] =
      some (JSNum.num (sumQ records), mapValND (csQ records)) := by
  have h := processRecords_valid records hval 0 []
  simpa [mapValND, csQ] using h

/-! ### Keys and lookups of the category table -/

theorem bumpQ_keys (l : List (String × ℚ)) (k : String) (a : ℚ) :
    (bumpQ l k a).map Prod.fst =
      if k ∈ l.map Prod.fst then l.map Prod.fst else l.map Prod.fst ++ [k] := by
  induction l with
  | nil => simp [bumpQ]
  | cons p rest ih =>
    obtain ⟨k0, v⟩ := p
    by_cases hk : k0 = k
    · subst hk
      simp [bumpQ]
    · have hmem : (k ∈ (k0 :: rest.map Prod.fst)) ↔ k ∈ rest.map Prod.fst := by
        simp [Ne.symm hk]
      by_cases hm : k ∈ rest.map Prod.fst
      · simp [bumpQ, hk, ih, hm]
      · simp [bumpQ, hk, ih, hm, Ne.symm hk]

theorem lookQ_bumpQ_self (l : List (String × ℚ)) (k : String) (a : ℚ) :
    lookQ (bumpQ l k a) k = lookQ l k + a := by
  induction l with
  | nil => simp [bumpQ, lookQ]
  | cons p rest ih =>
    obtain ⟨k0, v⟩ := p
    by_cases hk : k0 = k
    · simp [bumpQ, lookQ, hk]
    · simp [bumpQ, lookQ, hk, ih]

theorem lookQ_bumpQ_ne (l : List (String × ℚ)) (k : String) (a : ℚ) (k2 : String)
    (h : k2 ≠ k) : lookQ (bumpQ l k a) k2 = lookQ l k2 := by
  have hk2 : k ≠ k2 := Ne.symm h
  induction l with
  | nil => simp [bumpQ, lookQ, hk2]
  | cons p rest ih =>
    obtain ⟨k0, v⟩ := p
    by_cases hk : k0 = k
    · subst hk
      simp [bumpQ, lookQ, hk2]
    · simp [bumpQ, lookQ, hk, ih]

theorem foldl_stepCS_keys (records : List RawRecord) :
    ∀ acc : List (String × ℚ),
      (records.foldl stepCS acc).map Prod.fst =
        firstSeenFrom (acc.map Prod.fst) (records.map RawRecord.keyOf) := by
  induction records with
  | nil => intro acc; rfl
  | cons r rest ih =>
    intro acc
    simp only [List.foldl_cons, List.map_cons]
    rw [ih]
    have hstep : (stepCS acc r).map Prod.fst =
        if r.keyOf ∈ acc.map Prod.fst then acc.map Prod.fst
        else acc.map Prod.fst ++ [r.keyOf] := bumpQ_keys acc r.keyOf (amountQ r)
    rw [hstep]
    simp [firstSeenFrom, List.foldl_cons]

theorem catSumQ_nil (k : String) : catSumQ [] k = 0 := rfl

theorem catSumQ_cons (r : RawRecord) (rest : List RawRecord) (k : String) :
    catSumQ (r :: rest) k = (if r.keyOf = k then amountQ r else 0) + catSumQ rest k := by
  by_cases h : r.keyOf = k <;> simp [catSumQ, List.filter_cons, h]

theorem lookQ_foldl_stepCS (records : List RawRecord) :
    ∀ (acc : List (String × ℚ)) (k : String),
      lookQ (records.foldl stepCS acc) k = lookQ acc k + catSumQ records k := by
  induction records with
  | nil => intro acc k; simp [catSumQ]
  | cons r rest ih =>
    intro acc k
    simp only [List.foldl_cons]
    rw [ih, catSumQ_cons]
    by_cases h : r.keyOf = k
    · rw [if_pos h, stepCS, h, lookQ_bumpQ_self]
      ring
    · rw [if_neg h, stepCS, lookQ_bumpQ_ne _ _ _ _ (fun hh => h hh.symm)]
      ring

theorem csQ_keys (records : List RawRecord) :
    (csQ records).map Prod.fst = firstSeen (records.map RawRecord.keyOf) := by
  simpa using foldl_stepCS_keys records []

theorem lookQ_csQ (records : List RawRecord) (k : String) :
    lookQ (csQ records) k = catSumQ records k := by
  simpa [lookQ] using lookQ_foldl_stepCS records [] k

theorem lookQ_eq_of_mem {l : List (String × ℚ)} (hnd : (l.map Prod.fst).Nodup)
    {p : String × ℚ} (hp : p ∈ l) : lookQ l p.1 = p.2 := by
  induction l with
  | nil => cases hp
  | cons q rest ih =>
    obtain ⟨k0, v0⟩ := q
    rcases List.mem_cons.mp hp with rfl | hp2
    · simp [lookQ]
    · have hk : p.1 ∈ rest.map Prod.fst := List.mem_map_of_mem Prod.fst hp2
      have hne : k0 ≠ p.1 := by
        intro h
        exact (List.nodup_cons.mp (by simpa using hnd)).1 (h ▸ hk)
      simp only [lookQ, hne, if_false]
      exact ih (List.nodup_cons.mp (by simpa using hnd)).2 hp2

theorem exists_entry_of_mem_keys {l : List (String × ℚ)} {k : String}
    (h : k ∈ l.map Prod.fst) : ∃ v, (k, v) ∈ l := by
  rcases List.mem_map.mp h with ⟨p, hp, rfl⟩
  exact ⟨p.2, by simpa using hp⟩

/-! ### First-seen order -/

theorem firstSeenFrom_mem (xs : List String) :
    ∀ (acc : List String) (x : String),
      x ∈ firstSeenFrom acc xs ↔ x ∈ acc ∨ x ∈ xs := by
  induction xs with
  | nil => intro acc x; simp [firstSeenFrom]
  | cons y ys ih =>
    intro acc x
    have hstep : firstSeenFrom acc (y :: ys) =
        firstSeenFrom (if y ∈ acc then acc else acc ++ [y]) ys := by
      simp [firstSeenFrom, List.foldl_cons]
    rw [hstep, ih]
    by_cases hy : y ∈ acc
    · simp only [hy, if_true, List.mem_cons]
      constructor
      · rintro (h | h)
        · exact Or.inl h
        · exact Or.inr (Or.inr h)
      · rintro (h | h | h)
        · exact Or.inl h
        · exact Or.inl (h ▸ hy)
        · exact Or.inr h
    · simp only [hy, if_false, List.mem_append, List.mem_singleton, List.mem_cons]
      tauto

theorem firstSeen_mem (xs : List String) (x : String) :
    x ∈ firstSeen xs ↔ x ∈ xs := by
  simpa [firstSeen] using firstSeenFrom_mem xs [] x

theorem firstSeenFrom_nodup (xs : List String) :
    ∀ acc : List String, acc.Nodup → (firstSeenFrom acc xs).Nodup := by
  induction xs with
  | nil => intro acc h; exact h
  | cons y ys ih =>
    intro acc h
    have hstep : firstSeenFrom acc (y :: ys) =
        firstSeenFrom (if y ∈ acc then acc else acc ++ [y]) ys := by
      simp [firstSeenFrom, List.foldl_cons]
    rw [hstep]
    by_cases hy : y ∈ acc
    · simpa [hy] using ih acc h
    · refine ih _ ?_
      simp [hy, List.nodup_append, h]

theorem firstSeen_nodup (xs : List String) : (firstSeen xs).Nodup :=
  firstSeenFrom_nodup xs [] List.nodup_nil

theorem firstSeen_append_one (xs : List String) (x : String) :
    firstSeen (xs ++ [x]) =
      if x ∈ firstSeen xs then firstSeen xs else firstSeen xs ++ [x] := by
  simp [firstSeen, firstSeenFrom, List.foldl_append]

theorem firstIdx_lt_length {xs : List String} {k : String} (h : k ∈ xs) :
    firstIdx xs k < xs.length := by
  induction xs with
  | nil => cases h
  | cons y ys ih =>
    by_cases hy : y = k
    · simp [firstIdx, hy]
    · have : k ∈ ys := by
        rcases List.mem_cons.mp h with h1 | h1
        · exact absurd h1.symm hy
        · exact h1
      simp only [firstIdx, hy, if_false, List.length_cons]
      exact Nat.succ_lt_succ (ih this)

theorem firstIdx_append_left {xs : List String} {k : String} (h : k ∈ xs)
    (ys : List String) : firstIdx (xs ++ ys) k = firstIdx xs k := by
  induction xs with
  | nil => cases h
  | cons y zs ih =>
    by_cases hy : y = k
    · simp [firstIdx, hy]
    · have : k ∈ zs := by
        rcases List.mem_cons.mp h with h1 | h1
        · exact absurd h1.symm hy
        · exact h1
      simp [firstIdx, hy, ih this]

theorem firstIdx_append_right {xs : List String} {k : String} (h : k ∉ xs)
    (ys : List String) : firstIdx (xs ++ ys) k = xs.length + firstIdx ys k := by
  induction xs with
  | nil => simp [firstIdx]
  | cons y zs ih =>
    have hy : y ≠ k := fun hk => h (hk ▸ List.mem_cons_self y zs)
    have hzs : k ∉ zs := fun hk => h (List.mem_cons_of_mem y hk)
    have hstep : firstIdx ((y :: zs) ++ ys) k = firstIdx (zs ++ ys) k + 1 := by
      simp [firstIdx, hy, List.cons_append]
    rw [hstep, ih hzs, List.length_cons]
    omega

theorem pairwise_mono_mem {α : Type} {R S : α → α → Prop} :
    ∀ l : List α, l.Pairwise R → (∀ a ∈ l, ∀ b ∈ l, R a b → S a b) → l.Pairwise S := by
  intro l
  induction l with
  | nil => intro _ _; exact List.Pairwise.nil
  | cons x xs ih =>
    intro hp hmono
    rcases List.pairwise_cons.mp hp with ⟨hx, hxs⟩
    refine List.pairwise_cons.mpr ⟨?_, ?_⟩
    · intro b hb
      exact hmono x (List.mem_cons_self x xs) b (List.mem_cons_of_mem x hb) (hx b hb)
    · exact ih hxs (fun a ha b hb => hmono a (List.mem_cons_of_mem x ha) b (List.mem_cons_of_mem x hb))

theorem firstSeen_pairwise_firstIdx (xs : List String) :
    (firstSeen xs).Pairwise (fun a b => firstIdx xs a < firstIdx xs b) := by
  induction xs using List.reverseRecOn with
  | nil => simp [firstSeen, firstSeenFrom]
  | append_singleton xs x ih =>
    rw [firstSeen_append_one]
    by_cases hx : x ∈ firstSeen xs
    · rw [if_pos hx]
      refine pairwise_mono_mem _ ih ?_
      intro a ha b hb hab
      have ha2 : a ∈ xs := (firstSeen_mem xs a).mp ha
      have hb2 : b ∈ xs := (firstSeen_mem xs b).mp hb
      rw [firstIdx_append_left ha2, firstIdx_append_left hb2]
      exact hab
    · rw [if_neg hx]
      have hx2 : x ∉ xs := fun h => hx ((firstSeen_mem xs x).mpr h)
      rw [List.pairwise_append]
      refine ⟨?_, by simp, ?_⟩
      · refine pairwise_mono_mem _ ih ?_
        intro a ha b hb hab
        have ha2 : a ∈ xs := (firstSeen_mem xs a).mp ha
        have hb2 : b ∈ xs := (firstSeen_mem xs b).mp hb
        rw [firstIdx_append_left ha2, firstIdx_append_left hb2]
        exact hab
      · intro a ha b hb
        have hb2 : b = x := by simpa using hb
        subst hb2
        have ha2 : a ∈ xs := (firstSeen_mem xs a).mp ha
        rw [firstIdx_append_left ha2, firstIdx_append_right hx2]
        have : firstIdx xs a < xs.length := firstIdx_lt_length ha2
        omega

/-! ### Decimal property keys -/

theorem char_eq_of_toNat_eq {c d : Char} (h : c.toNat = d.toNat) : c = d :=
  Char.eq_of_val_eq (UInt32.toNat.inj h)

theorem foldl_digits (cs : List Char) :
    ∀ acc : Nat, cs.foldl (fun n c => 10 * n + digitVal c) acc =
      acc * 10 ^ cs.length + cs.foldl (fun n c => 10 * n + digitVal c) 0 := by
  induction cs with
  | nil => intro acc; simp
  | cons c rest ih =>
    intro acc
    rw [List.foldl_cons, List.foldl_cons, ih (10 * acc + digitVal c),
      ih (10 * 0 + digitVal c), List.length_cons]
    ring

theorem digitsVal_cons (c : Char) (rest : List Char) :
    digitsVal (c :: rest) = digitVal c * 10 ^ rest.length + digitsVal rest := by
  rw [digitsVal, List.foldl_cons, foldl_digits rest (10 * 0 + digitVal c), digitsVal]
  ring

theorem digitVal_le (c : Char) (h : isDigitChar c = true) : digitVal c ≤ 9 := by
  simp only [isDigitChar, Bool.and_eq_true, decide_eq_true_eq] at h
  simp only [digitVal]
  omega

theorem digitsVal_lt (cs : List Char) (h : ∀ c ∈ cs, isDigitChar c = true) :
    digitsVal cs < 10 ^ cs.length := by
  induction cs with
  | nil => simp [digitsVal]
  | cons c rest ih =>
    rw [digitsVal_cons, List.length_cons]
    have h1 : digitVal c ≤ 9 := digitVal_le c (h c (List.mem_cons_self c rest))
    have h2 : digitsVal rest < 10 ^ rest.length :=
      ih (fun x hx => h x (List.mem_cons_of_mem c hx))
    calc digitVal c * 10 ^ rest.length + digitsVal rest
        < digitVal c * 10 ^ rest.length + 10 ^ rest.length := by omega
      _ = (digitVal c + 1) * 10 ^ rest.length := by ring
      _ ≤ 10 * 10 ^ rest.length := Nat.mul_le_mul_right _ (by omega)
      _ = 10 ^ (rest.length + 1) := by ring

theorem digitsVal_lower (c : Char) (rest : List Char)
    (hne : c ≠ Char.ofNat 48) (hd : isDigitChar c = true) :
    10 ^ rest.length ≤ digitsVal (c :: rest) := by
  rw [digitsVal_cons]
  have h1 : 1 ≤ digitVal c := by
    simp only [isDigitChar, Bool.and_eq_true, decide_eq_true_eq] at hd
    have h48 : c.toNat ≠ 48 := by
      intro h
      exact hne (char_eq_of_toNat_eq (by rw [h]; rfl))
    simp only [digitVal]
    omega
  calc 10 ^ rest.length = 1 * 10 ^ rest.length := by ring
    _ ≤ digitVal c * 10 ^ rest.length := Nat.mul_le_mul_right _ h1
    _ ≤ _ := Nat.le_add_right _ _

theorem digitsVal_inj_len :
    ∀ cs ds : List Char, cs.length = ds.length →
      (∀ c ∈ cs, isDigitChar c = true) → (∀ c ∈ ds, isDigitChar c = true) →
      digitsVal cs = digitsVal ds → cs = ds := by
  intro cs
  induction cs with
  | nil =>
    intro ds hlen _ _ _
    cases ds with
    | nil => rfl
    | cons d ds2 => simp at hlen
  | cons c rest ih =>
    intro ds hlen hdc hdd hval
    cases ds with
    | nil => simp at hlen
    | cons d ds2 =>
      have hlen2 : rest.length = ds2.length := by simpa using hlen
      rw [digitsVal_cons, digitsVal_cons, hlen2] at hval
      have hv1 : digitsVal rest < 10 ^ ds2.length := by
        rw [← hlen2]
        exact digitsVal_lt rest (fun x hx => hdc x (List.mem_cons_of_mem c hx))
      have hv2 : digitsVal ds2 < 10 ^ ds2.length :=
        digitsVal_lt ds2 (fun x hx => hdd x (List.mem_cons_of_mem d hx))
      have hmod : ∀ (a v : Nat), v < 10 ^ ds2.length →
          (a * 10 ^ ds2.length + v) % 10 ^ ds2.length = v := by
        intro a v hv
        rw [Nat.mul_comm, Nat.mul_add_mod]
        exact Nat.mod_eq_of_lt hv
      have hr : digitsVal rest = digitsVal ds2 := by
        have h1 := congrArg (fun n => n % 10 ^ ds2.length) hval
        simpa [hmod _ _ hv1, hmod _ _ hv2] using h1
      have hdv : digitVal c = digitVal d := by
        rw [hr] at hval
        have h2 := Nat.add_right_cancel hval
        exact Nat.eq_of_mul_eq_mul_right (Nat.pos_pow_of_pos _ (by norm_num)) h2
      have hc : c = d := by
        have hbc : isDigitChar c = true := hdc c (List.mem_cons_self c rest)
        have hbd : isDigitChar d = true := hdd d (List.mem_cons_self d ds2)
        simp only [isDigitChar, Bool.and_eq_true, decide_eq_true_eq] at hbc hbd
        simp only [digitVal] at hdv
        exact char_eq_of_toNat_eq (by omega)
      rw [hc, ih ds2 hlen2 (fun x hx => hdc x (List.mem_cons_of_mem c hx))
        (fun x hx => hdd x (List.mem_cons_of_mem d hx)) hr]

theorem canon_not_lt (cs ds : List Char)
    (hcs_ne : cs ≠ []) (hcs_dig : ∀ c ∈ cs, isDigitChar c = true)
    (hcs_canon : cs = [Char.ofNat 48] ∨ cs.head? ≠ some (Char.ofNat 48))
    (hds_ne : ds ≠ []) (hds_dig : ∀ c ∈ ds, isDigitChar c = true)
    (hval : digitsVal cs = digitsVal ds) :
    ¬ ds.length < cs.length := by
  intro hlt
  cases cs with
  | nil => exact hcs_ne rfl
  | cons c rest =>
    rcases hcs_canon with h0 | hh
    · rw [h0] at hlt
      have hdl : ds = [] := by simpa using hlt
      exact hds_ne hdl
    · have hcne : c ≠ Char.ofNat 48 := by
        intro h
        apply hh
        rw [h]
        rfl
      have hlow : 10 ^ rest.length ≤ digitsVal (c :: rest) :=
        digitsVal_lower c rest hcne (hcs_dig c (List.mem_cons_self c rest))
      have hup : digitsVal ds < 10 ^ ds.length := digitsVal_lt ds hds_dig
      have hle : ds.length ≤ rest.length := by
        rw [List.length_cons] at hlt
        omega
      have hup2 : digitsVal ds < 10 ^ rest.length :=
        lt_of_lt_of_le hup (Nat.pow_le_pow_right (by norm_num) hle)
      omega

theorem keyNum_inj {s t : String} (hs : isArrayIndex s = true)
    (ht : isArrayIndex t = true) (h : keyNum s = keyNum t) : s = t := by
  simp only [isArrayIndex, Bool.and_eq_true, Bool.or_eq_true, decide_eq_true_eq,
    List.all_eq_true] at hs ht
  obtain ⟨⟨⟨hs_ne, hs_dig⟩, hs_canon⟩, _⟩ := hs
  obtain ⟨⟨⟨ht_ne, ht_dig⟩, ht_canon⟩, _⟩ := ht
  have hvv : digitsVal s.toList = digitsVal t.toList := h
  have h1 : ¬ t.toList.length < s.toList.length :=
    canon_not_lt s.toList t.toList hs_ne hs_dig hs_canon ht_ne ht_dig hvv
  have h2 : ¬ s.toList.length < t.toList.length :=
    canon_not_lt t.toList s.toList ht_ne ht_dig ht_canon hs_ne hs_dig hvv.symm
  have hlen : s.toList.length = t.toList.length := by omega
  have hlist : s.toList = t.toList :=
    digitsVal_inj_len s.toList t.toList hlen hs_dig ht_dig hvv
  cases s with
  | mk sd =>
    cases t with
    | mk td =>
      have hdata : sd = td := hlist
      rw [hdata]

/-! ### Enumeration order of object keys -/

theorem insertByKeyNum_perm {α : Type} (p : String × α) (l : List (String × α)) :
    List.Perm (insertByKeyNum p l) (p :: l) := by
  induction l with
  | nil => exact List.Perm.refl _
  | cons q rest ih =>
    by_cases h : keyNum p.1 ≤ keyNum q.1
    · simp only [insertByKeyNum, h, if_true]
      exact List.Perm.refl _
    · simp only [insertByKeyNum, h, if_false]
      exact List.Perm.trans (ih.cons q) (List.Perm.swap p q rest)

theorem sortByKeyNum_perm {α : Type} (l : List (String × α)) :
    List.Perm (sortByKeyNum l) l := by
  induction l with
  | nil => exact List.Perm.refl _
  | cons p rest ih =>
    exact List.Perm.trans (insertByKeyNum_perm p (sortByKeyNum rest)) (ih.cons p)

theorem insertByKeyNum_sorted {α : Type} (p : String × α) (l : List (String × α))
    (hl : l.Pairwise (fun a b => keyNum a.1 ≤ keyNum b.1)) :
    (insertByKeyNum p l).Pairwise (fun a b => keyNum a.1 ≤ keyNum b.1) := by
  induction l with
  | nil => simp [insertByKeyNum]
  | cons q rest ih =>
    rcases List.pairwise_cons.mp hl with ⟨hq, hrest⟩
    by_cases h : keyNum p.1 ≤ keyNum q.1
    · simp only [insertByKeyNum, h, if_true]
      refine List.pairwise_cons.mpr ⟨?_, hl⟩
      intro b hb
      rcases List.mem_cons.mp hb with rfl | hb2
      · exact h
      · exact le_trans h (hq b hb2)
    · simp only [insertByKeyNum, h, if_false]
      refine List.pairwise_cons.mpr ⟨?_, ih hrest⟩
      intro b hb
      have hb2 : b ∈ p :: rest := (insertByKeyNum_perm p rest).mem_iff.mp hb
      rcases List.mem_cons.mp hb2 with rfl | hb3
      · exact le_of_not_le h
      · exact hq b hb3

theorem sortByKeyNum_sorted {α : Type} (l : List (String × α)) :
    (sortByKeyNum l).Pairwise (fun a b => keyNum a.1 ≤ keyNum b.1) := by
  induction l with
  | nil => exact List.Pairwise.nil
  | cons p rest ih => exact insertByKeyNum_sorted p _ ih

theorem entriesOf_perm {α : Type} (l : List (String × α)) :
    List.Perm (entriesOf l) l :=
  List.Perm.trans
    ((sortByKeyNum_perm (l.filter (fun p => isArrayIndex p.1))).append_right _)
    (List.filter_append_perm _ l)

theorem insertByKeyNum_mapValND (p : String × ℚ) (m : List (String × ℚ)) :
    insertByKeyNum (p.1, JSNum.num p.2) (mapValND m) = mapValND (insertByKeyNum p m) := by
  induction m with
  | nil => rfl
  | cons q rest ih =>
    by_cases h : keyNum p.1 ≤ keyNum q.1
    · simp [insertByKeyNum, mapValND, h]
    · simp only [mapValND, List.map_cons] at ih ⊢
      simp only [insertByKeyNum, h, if_false]
      rw [ih, List.map_cons]

theorem sortByKeyNum_mapValND (m : List (String × ℚ)) :
    sortByKeyNum (mapValND m) = mapValND (sortByKeyNum m) := by
  induction m with
  | nil => rfl
  | cons p rest ih =>
    show insertByKeyNum (p.1, JSNum.num p.2) (sortByKeyNum (mapValND rest)) = _
    rw [ih, insertByKeyNum_mapValND]
    rfl

theorem filter_idx_mapValND (m : List (String × ℚ)) :
    (mapValND m).filter (fun p => isArrayIndex p.1) =
      mapValND (m.filter (fun p => isArrayIndex p.1)) := by
  induction m with
  | nil => rfl
  | cons p rest ih =>
    simp only [mapValND, List.map_cons] at ih ⊢
    by_cases h : isArrayIndex p.1
    · simp [List.filter_cons, h, ih]
    · simp [List.filter_cons, h, ih]

theorem filter_nonidx_mapValND (m : List (String × ℚ)) :
    (mapValND m).filter (fun p => !isArrayIndex p.1) =
      mapValND (m.filter (fun p => !isArrayIndex p.1)) := by
  induction m with
  | nil => rfl
  | cons p rest ih =>
    simp only [mapValND, List.map_cons] at ih ⊢
    by_cases h : isArrayIndex p.1
    · simp [List.filter_cons, h, ih]
    · simp [List.filter_cons, h, ih]

theorem entriesOf_mapValND (m : List (String × ℚ)) :
    entriesOf (mapValND m) = mapValND (entriesOf m) := by
  rw [entriesOf, entriesOf, filter_idx_mapValND, filter_nonidx_mapValND,
    sortByKeyNum_mapValND]
  simp [mapValND]

theorem keys_filter_nonidx {α : Type} (l : List (String × α)) :
    (l.filter (fun p => !isArrayIndex p.1)).map Prod.fst =
      (l.map Prod.fst).filter (fun k => !isArrayIndex k) := by
  induction l with
  | nil => rfl
  | cons p rest ih =>
    by_cases h : isArrayIndex p.1
    · simp [List.filter_cons, h, ih]
    · simp [List.filter_cons, h, ih]

theorem entriesOf_keys (l : List (String × ℚ)) :
    (entriesOf l).map Prod.fst =
      (sortByKeyNum (l.filter (fun p => isArrayIndex p.1))).map Prod.fst ++
        (l.map Prod.fst).filter (fun k => !isArrayIndex k) := by
  rw [entriesOf, List.map_append, keys_filter_nonidx]

theorem sort_keys_all_idx (l : List (String × ℚ)) :
    ∀ k ∈ (sortByKeyNum (l.filter (fun p => isArrayIndex p.1))).map Prod.fst,
      isArrayIndex k = true := by
  intro k hk
  rcases List.mem_map.mp hk with ⟨p, hp, rfl⟩
  have hp2 : p ∈ l.filter (fun p => isArrayIndex p.1) :=
    (sortByKeyNum_perm _).mem_iff.mp hp
  exact (List.mem_filter.mp hp2).2

theorem entriesOf_keys_filter_idx (l : List (String × ℚ)) :
    ((entriesOf l).map Prod.fst).filter isArrayIndex =
      (sortByKeyNum (l.filter (fun p => isArrayIndex p.1))).map Prod.fst := by
  rw [entriesOf_keys, List.filter_append,
    List.filter_eq_self.mpr (sort_keys_all_idx l)]
  have h2 : (((l.map Prod.fst).filter (fun k => !isArrayIndex k)).filter isArrayIndex) = [] := by
    apply List.filter_eq_nil_iff.mpr
    intro k hk
    have := (List.mem_filter.mp hk).2
    simp only [Bool.not_eq_true'] at this
    simp [this]
  rw [h2, List.append_nil]

theorem entriesOf_keys_filter_nonidx (l : List (String × ℚ)) :
    ((entriesOf l).map Prod.fst).filter (fun k => !isArrayIndex k) =
      (l.map Prod.fst).filter (fun k => !isArrayIndex k) := by
  rw [entriesOf_keys, List.filter_append]
  have h1 : ((sortByKeyNum (l.filter (fun p => isArrayIndex p.1))).map Prod.fst).filter
      (fun k => !isArrayIndex k) = [] := by
    apply List.filter_eq_nil_iff.mpr
    intro k hk
    simp [sort_keys_all_idx l k hk]
  have h2 : (((l.map Prod.fst).filter (fun k => !isArrayIndex k)).filter
      (fun k => !isArrayIndex k)) = (l.map Prod.fst).filter (fun k => !isArrayIndex k) := by
    apply List.filter_eq_self.mpr
    intro k hk
    exact (List.mem_filter.mp hk).2
  rw [h1, h2, List.nil_append]

theorem pairwise_and {α : Type} {R S : α → α → Prop} :
    ∀ l : List α, l.Pairwise R → l.Pairwise S →
      l.Pairwise (fun a b => R a b ∧ S a b) := by
  intro l
  induction l with
  | nil => intro _ _; exact List.Pairwise.nil
  | cons x xs ih =>
    intro hr hs
    rcases List.pairwise_cons.mp hr with ⟨hr1, hr2⟩
    rcases List.pairwise_cons.mp hs with ⟨hs1, hs2⟩
    exact List.pairwise_cons.mpr ⟨fun b hb => ⟨hr1 b hb, hs1 b hb⟩, ih hr2 hs2⟩

theorem entriesOf_keys_idx_sorted (l : List (String × ℚ))
    (hnd : (l.map Prod.fst).Nodup) :
    (((entriesOf l).map Prod.fst).filter isArrayIndex).Pairwise
      (fun a b => keyNum a < keyNum b) := by
  rw [entriesOf_keys_filter_idx]
  have hle : ((sortByKeyNum (l.filter (fun p => isArrayIndex p.1))).map Prod.fst).Pairwise
      (fun a b => keyNum a ≤ keyNum b) :=
    List.pairwise_map.mpr (sortByKeyNum_sorted _)
  have hndA : ((sortByKeyNum (l.filter (fun p => isArrayIndex p.1))).map Prod.fst).Nodup := by
    have hperm : List.Perm
        ((sortByKeyNum (l.filter (fun p => isArrayIndex p.1))).map Prod.fst)
        ((l.filter (fun p => isArrayIndex p.1)).map Prod.fst) :=
      (sortByKeyNum_perm _).map _
    rw [hperm.nodup_iff]
    have hsub : List.Sublist (l.filter (fun p => isArrayIndex p.1)) l :=
      List.filter_sublist l
    exact (hsub.map Prod.fst).nodup hnd
  have hne : ((sortByKeyNum (l.filter (fun p => isArrayIndex p.1))).map Prod.fst).Pairwise
      (fun a b => a ≠ b) := hndA
  refine pairwise_mono_mem _ (pairwise_and _ hle hne) ?_
  intro a ha b hb hab
  exact lt_of_le_of_ne hab.1
    (fun hk => hab.2 (keyNum_inj (sort_keys_all_idx l a ha) (sort_keys_all_idx l b hb) hk))

theorem nodup_pairwise_firstIdx :
    ∀ ks : List String, ks.Nodup →
      ks.Pairwise (fun a b => firstIdx ks a < firstIdx ks b) := by
  intro ks
  induction ks with
  | nil => intro _; exact List.Pairwise.nil
  | cons x rest ih =>
    intro hnd
    rcases List.nodup_cons.mp hnd with ⟨hx, hrest⟩
    refine List.pairwise_cons.mpr ⟨?_, ?_⟩
    · intro b hb
      have hbx : x ≠ b := fun h => hx (h ▸ hb)
      simp [firstIdx, hbx]
    · refine pairwise_mono_mem _ (ih hrest) ?_
      intro a ha b hb hab
      have hax : x ≠ a := fun h => hx (h ▸ ha)
      have hbx : x ≠ b := fun h => hx (h ▸ hb)
      simp only [firstIdx, hax, hbx, if_false]
      omega

/-! ### The best-category reduce -/

theorem foldl_pickMax_spec (l : List (String × ℚ)) :
    ∀ acc : String × ℚ,
      (l.foldl pickMax acc = acc ∧ ∀ e ∈ l, e.2 ≤ acc.2) ∨
      (∃ l1 l2, l = l1 ++ (l.foldl pickMax acc) :: l2 ∧
        acc.2 < (l.foldl pickMax acc).2 ∧
        (∀ e ∈ l1, e.2 < (l.foldl pickMax acc).2) ∧
        (∀ e ∈ l2, e.2 ≤ (l.foldl pickMax acc).2)) := by
  induction l with
  | nil =>
    intro acc
    left
    exact ⟨rfl, by simp⟩
  | cons x xs ih =>
    intro acc
    simp only [List.foldl_cons]
    by_cases hx : acc.2 < x.2
    · have hpick : pickMax acc x = x := by simp [pickMax, hx]
      rw [hpick]
      rcases ih x with ⟨heq, hle⟩ | ⟨l1, l2, hsplit, hlt, hl1, hl2⟩
      · right
        refine ⟨[], xs, by simp [heq], by rw [heq]; exact hx, by simp, ?_⟩
        intro e he
        rw [heq]
        exact hle e he
      · right
        refine ⟨x :: l1, l2, congrArg (List.cons x) hsplit, lt_trans hx hlt, ?_, hl2⟩
        intro e he
        rcases List.mem_cons.mp he with rfl | he2
        · exact hlt
        · exact hl1 e he2
    · have hpick : pickMax acc x = acc := by simp [pickMax, hx]
      rw [hpick]
      rcases ih acc with ⟨heq, hle⟩ | ⟨l1, l2, hsplit, hlt, hl1, hl2⟩
      · left
        refine ⟨heq, ?_⟩
        intro e he
        rcases List.mem_cons.mp he with rfl | he2
        · exact le_of_not_lt hx
        · exact hle e he2
      · right
        refine ⟨x :: l1, l2, congrArg (List.cons x) hsplit, hlt, ?_, hl2⟩
        intro e he
        rcases List.mem_cons.mp he with rfl | he2
        · exact lt_of_le_of_lt (le_of_not_lt hx) hlt
        · exact hl1 e he2

theorem foldl_pickJS_mapValND (l : List (String × ℚ)) :
    ∀ (k : String) (v : ℚ),
      (mapValND l).foldl (fun m e => if JSNum.lt m.2 e.2 then e else m) (k, JSNum.num v) =
        ((l.foldl pickMax (k, v)).1, JSNum.num (l.foldl pickMax (k, v)).2) := by
  induction l with
  | nil => intro k v; rfl
  | cons p rest ih =>
    intro k v
    obtain ⟨k1, v1⟩ := p
    simp only [mapValND, List.map_cons, List.foldl_cons] at ih ⊢
    by_cases h : v < v1
    · have h1 : JSNum.lt (JSNum.num v) (JSNum.num v1) = true := by
        simp [JSNum.lt, h]
      have h2 : pickMax (k, v) (k1, v1) = (k1, v1) := by
        simp [pickMax, h]
      rw [h2]
      simp only [h1, if_true]
      exact ih k1 v1
    · have h1 : JSNum.lt (JSNum.num v) (JSNum.num v1) = false := by
        simp [JSNum.lt, h]
      have h2 : pickMax (k, v) (k1, v1) = (k, v) := by
        simp [pickMax, h]
      rw [h2]
      simp only [h1, Bool.false_eq_true, if_false]
      exact ih k v

theorem bestCategory_mapValND (l : List (String × ℚ)) :
    bestCategory (mapValND l) = ((bestQ l).1, JSNum.num (bestQ l).2) := by
  rw [bestCategory, entriesOf_mapValND]
  exact foldl_pickJS_mapValND (entriesOf l) "" 0

/-! ### Characterization of the computed insights -/

theorem insightsOf_of_valid (records : List RawRecord)
    (hval : ∀ r ∈ records, validSale r = true) :
    insightsOf records = some
      ⟨JSNum.num (sumQ records),
       jsDivNat (JSNum.num (sumQ records)) records.length,
       mapValND (csQ records),
       (bestQ (csQ records)).1⟩ := by
  have h := csQ_of_valid records hval
  simp only [insightsOf, h]
  rw [bestCategory_mapValND]

theorem insightsOf_eq_none_iff (records : List RawRecord) :
    insightsOf records = none ↔ ∃ r ∈ records, invalidRecord r = true := by
  rw [← processRecords_eq_none_iff records (JSNum.num 0) []]
  cases hpr : processRecords records (JSNum.num 0) [] with
  | none => simp [insightsOf, hpr]
  | some p => simp [insightsOf, hpr]

theorem post_of_insights_none (gen : String → Except String String)
    (records : List RawRecord) (hlen : records.length ≠ 0)
    (hins : insightsOf records = none) :
    POST gen (Body.arr records) = ⟨400, RespBody.failure "Invalid sale record"⟩ := by
  rw [POST, if_neg hlen, hins]

theorem post_of_insights_some (gen : String → Except String String)
    (records : List RawRecord) (i : Insights) (hlen : records.length ≠ 0)
    (hins : insightsOf records = some i) :
    POST gen (Body.arr records) =
      match gen (aiPrompt i) with
      | .error _ => ⟨500, RespBody.failure "Internal Server Error"⟩
      | .ok summary => ⟨200, RespBody.success i summary⟩ := by
  rw [POST, if_neg hlen, hins]

theorem post_200_inv (gen : String → Except String String) (records : List RawRecord)
    (ins : Insights) (s : String)
    (h : POST gen (Body.arr records) = ⟨200, RespBody.success ins s⟩) :
    records.length ≠ 0 ∧ insightsOf records = some ins := by
  by_cases hlen : records.length = 0
  · rw [POST, if_pos hlen] at h
    cases h
  · refine ⟨hlen, ?_⟩
    cases hins : insightsOf records with
    | none =>
      rw [post_of_insights_none gen records hlen hins] at h
      cases h
    | some i =>
      rw [post_of_insights_some gen records i hlen hins] at h
      cases hgen : gen (aiPrompt i) with
      | error e =>
        rw [hgen] at h
        have h2 : Response.mk 500 (RespBody.failure "Internal Server Error") =
            Response.mk 200 (RespBody.success ins s) := h
        cases h2
      | ok s2 =>
        rw [hgen] at h
        have h2 : Response.mk 200 (RespBody.success i s2) =
            Response.mk 200 (RespBody.success ins s) := h
        injection h2 with h3 h4
        injection h4 with h5 h6
        rw [h5]

theorem post_badRecord_iff (gen : String → Except String String)
    (records : List RawRecord) (hlen : records.length ≠ 0) :
    POST gen (Body.arr records) = ⟨400, RespBody.failure "Invalid sale record"⟩ ↔
      ∃ r ∈ records, invalidRecord r = true := by
  cases hins : insightsOf records with
  | none =>
    constructor
    · intro _
      exact (insightsOf_eq_none_iff records).mp hins
    · intro _
      exact post_of_insights_none gen records hlen hins
  | some i =>
    constructor
    · intro h
      rw [post_of_insights_some gen records i hlen hins] at h
      cases hgen : gen (aiPrompt i) with
      | error e =>
        rw [hgen] at h
        have h2 : Response.mk 500 (RespBody.failure "Internal Server Error") =
            Response.mk 400 (RespBody.failure "Invalid sale record") := h
        injection h2 with h3 h4
        cases h3
      | ok s2 =>
        rw [hgen] at h
        have h2 : Response.mk 200 (RespBody.success i s2) =
            Response.mk 400 (RespBody.failure "Invalid sale record") := h
        injection h2 with h3 h4
        cases h3
    · intro hex
      have hnone : insightsOf records = none := (insightsOf_eq_none_iff records).mpr hex
      rw [hnone] at hins
      cases hins

theorem mapValND_keys (l : List (String × ℚ)) :
    (mapValND l).map Prod.fst = l.map Prod.fst := by
  simp [mapValND]

theorem csQ_value {records : List RawRecord} {p : String × ℚ} (hp : p ∈ csQ records) :
    p.2 = catSumQ records p.1 := by
  have hnd : ((csQ records).map Prod.fst).Nodup := by
    rw [csQ_keys]
    exact firstSeen_nodup _
  rw [← lookQ_csQ records p.1, lookQ_eq_of_mem hnd hp]

theorem all_valid_of_all_eq {records : List RawRecord}
    (h : records.all validSale = true) : ∀ r ∈ records, validSale r = true := by
  intro r hr
  exact List.all_eq_true.mp h r hr

/-! ### Concrete inputs used by the witnesses -/

/-- The worked example from the repository's test suite. -/
def exampleRecords : List RawRecord :=
  [⟨JSValue.str "Electronics", JSValue.numVal (JSNum.num 100)⟩,
   ⟨JSValue.str "Clothing", JSValue.numVal (JSNum.num 50)⟩,
   ⟨JSValue.str "Electronics", JSValue.numVal (JSNum.num 200)⟩]

/-- The insights the handler computes for `exampleRecords`. -/
def exampleInsights : Insights :=
  ⟨JSNum.num 350, JSNum.num (350 / 3),
   [("Electronics", JSNum.num 300), ("Clothing", JSNum.num 50)], "Electronics"⟩

/-- An external call that succeeds with a fixed summary. -/
def okGen : String → Except String String := fun _ => Except.ok "Mocked AI summary"

/-- An external call that always raises. -/
def errGen : String → Except String String := fun _ => Except.error "API failure"

/-! ### Claims -/

/-- C1: for every non-empty array of valid SaleRecords accepted by the
handler, the insights object in the 200 response has `totalSales` equal to
the exact sum of all amounts and `averageSale` equal to that sum divided
by the number of records; neither value is rounded inside the insights
object. -/
theorem C1_totals_exact (gen : String → Except String String)
    (records : List RawRecord) (ins : Insights) (s : String)
    (hval : ∀ r ∈ records, validSale r = true)
    (h : POST gen (Body.arr records) = ⟨200, RespBody.success ins s⟩) :
    ins.totalSales = JSNum.num (sumQ records) ∧
    ins.averageSale = JSNum.num (sumQ records / (records.length : ℚ)) := by
  obtain ⟨hlen, hins⟩ := post_200_inv gen records ins s h
  rw [insightsOf_of_valid records hval] at hins
  injection hins with hi
  obtain ⟨n, hn⟩ := Nat.exists_eq_succ_of_ne_zero hlen
  constructor
  · rw [← hi]
  · rw [← hi]
    show jsDivNat (JSNum.num (sumQ records)) records.length = _
    rw [hn]
    show JSNum.num (sumQ records / ((n : ℚ) + 1)) = _
    rw [Nat.cast_succ]

/-- Witness for C1 at the test suite's worked example. -/
theorem C1_totals_exact_witness :
    (∀ r ∈ exampleRecords, validSale r = true) ∧
    POST okGen (Body.arr exampleRecords) =
      ⟨200, RespBody.success exampleInsights "Mocked AI summary"⟩ ∧
    (exampleInsights.totalSales = JSNum.num (sumQ exampleRecords) ∧
     exampleInsights.averageSale =
       JSNum.num (sumQ exampleRecords / (exampleRecords.length : ℚ))) :=
  ⟨all_valid_of_all_eq (by with_unfolding_all rfl),
   by with_unfolding_all rfl,
   C1_totals_exact okGen exampleRecords exampleInsights "Mocked AI summary"
     (all_valid_of_all_eq (by with_unfolding_all rfl))
     (by with_unfolding_all rfl)⟩

/-- The records of the C3 counterexample: a plain category `"B"`
followed by the array-index category `"2"`. -/
def idxRecords : List RawRecord :=
  [⟨JSValue.str "B", JSValue.numVal (JSNum.num 5)⟩,
   ⟨JSValue.str "2", JSValue.numVal (JSNum.num 5)⟩]

/-- C3 counterexample: on the valid input with category `"B"` first and
the array-index category `"2"` second, the returned object's keys are
enumerated (and serialized) as `"2"` before `"B"` — and the tie makes
`"2"` the best category — so the keys do not appear in the order in
which each category first occurs in the input. -/
theorem C3_counterexample :
    (idxRecords.all validSale = true) ∧
    POST okGen (Body.arr idxRecords) =
      ⟨200, RespBody.success ⟨JSNum.num 10, JSNum.num 5,
        [("B", JSNum.num 5), ("2", JSNum.num 5)], "2"⟩ "Mocked AI summary"⟩ ∧
    (entriesOf [("B", JSNum.num 5), ("2", JSNum.num 5)]).map Prod.fst = ["2", "B"] ∧
    firstSeen (idxRecords.map RawRecord.keyOf) = ["B", "2"] :=
  ⟨by with_unfolding_all rfl, by with_unfolding_all rfl,
   by with_unfolding_all rfl, by with_unfolding_all rfl⟩

/-- C3 (amended): in a 200 response for valid records, `categorySales`
has exactly one key per distinct input category, each mapped to the
exact sum of that category's amounts; as enumerated and serialized, the
keys appear in JS own-property order: array-index keys first in
ascending numeric order, then the remaining keys in the order each
category first occurs in the input. -/
theorem C3_category_sales (gen : String → Except String String)
    (records : List RawRecord) (ins : Insights) (s : String)
    (hval : ∀ r ∈ records, validSale r = true)
    (h : POST gen (Body.arr records) = ⟨200, RespBody.success ins s⟩) :
    ((entriesOf ins.categorySales).map Prod.fst).Nodup ∧
    (∀ k, k ∈ (entriesOf ins.categorySales).map Prod.fst ↔
      k ∈ records.map RawRecord.keyOf) ∧
    (∀ p ∈ entriesOf ins.categorySales, p.2 = JSNum.num (catSumQ records p.1)) ∧
    ((entriesOf ins.categorySales).map Prod.fst =
      ((entriesOf ins.categorySales).map Prod.fst).filter isArrayIndex ++
        ((entriesOf ins.categorySales).map Prod.fst).filter (fun k => !isArrayIndex k)) ∧
    (((entriesOf ins.categorySales).map Prod.fst).filter isArrayIndex).Pairwise
      (fun a b => keyNum a < keyNum b) ∧
    (((entriesOf ins.categorySales).map Prod.fst).filter (fun k => !isArrayIndex k)).Pairwise
      (fun a b => firstIdx (records.map RawRecord.keyOf) a <
        firstIdx (records.map RawRecord.keyOf) b) := by
  obtain ⟨hlen, hins⟩ := post_200_inv gen records ins s h
  rw [insightsOf_of_valid records hval] at hins
  injection hins with hi
  have hcs : ins.categorySales = mapValND (csQ records) := by rw [← hi]
  have hE : entriesOf ins.categorySales = mapValND (entriesOf (csQ records)) := by
    rw [hcs, entriesOf_mapValND]
  have hEkeys : (entriesOf ins.categorySales).map Prod.fst =
      (entriesOf (csQ records)).map Prod.fst := by
    rw [hE, mapValND_keys]
  have hndcs : ((csQ records).map Prod.fst).Nodup := by
    rw [csQ_keys]
    exact firstSeen_nodup _
  have hperm : List.Perm (entriesOf (csQ records)) (csQ records) := entriesOf_perm _
  have hkeysperm : List.Perm ((entriesOf (csQ records)).map Prod.fst)
      ((csQ records).map Prod.fst) := hperm.map _
  refine ⟨?_, ?_, ?_, ?_, ?_, ?_⟩
  · rw [hEkeys]
    exact hkeysperm.nodup_iff.mpr hndcs
  · intro k
    rw [hEkeys, hkeysperm.mem_iff, csQ_keys, firstSeen_mem]
  · intro p hp
    rw [hE] at hp
    rcases List.mem_map.mp hp with ⟨q, hq, rfl⟩
    have hq2 : q ∈ csQ records := hperm.mem_iff.mp hq
    simp [csQ_value hq2]
  · rw [hEkeys, entriesOf_keys_filter_idx, entriesOf_keys_filter_nonidx]
    exact entriesOf_keys _
  · rw [hEkeys]
    exact entriesOf_keys_idx_sorted _ hndcs
  · rw [hEkeys, entriesOf_keys_filter_nonidx]
    refine List.Pairwise.sublist (List.filter_sublist _) ?_
    rw [csQ_keys]
    exact firstSeen_pairwise_firstIdx _

/-- Witness for the amended C3 at the test suite's worked example. -/
theorem C3_category_sales_witness :
    (∀ r ∈ exampleRecords, validSale r = true) ∧
    POST okGen (Body.arr exampleRecords) =
      ⟨200, RespBody.success exampleInsights "Mocked AI summary"⟩ ∧
    (((entriesOf exampleInsights.categorySales).map Prod.fst).Nodup ∧
     (∀ k, k ∈ (entriesOf exampleInsights.categorySales).map Prod.fst ↔
        k ∈ exampleRecords.map RawRecord.keyOf) ∧
     (∀ p ∈ entriesOf exampleInsights.categorySales,
        p.2 = JSNum.num (catSumQ exampleRecords p.1)) ∧
     ((entriesOf exampleInsights.categorySales).map Prod.fst =
       ((entriesOf exampleInsights.categorySales).map Prod.fst).filter isArrayIndex ++
         ((entriesOf exampleInsights.categorySales).map Prod.fst).filter
           (fun k => !isArrayIndex k)) ∧
     (((entriesOf exampleInsights.categorySales).map Prod.fst).filter isArrayIndex).Pairwise
       (fun a b => keyNum a < keyNum b) ∧
     (((entriesOf exampleInsights.categorySales).map Prod.fst).filter
         (fun k => !isArrayIndex k)).Pairwise
       (fun a b => firstIdx (exampleRecords.map RawRecord.keyOf) a <
         firstIdx (exampleRecords.map RawRecord.keyOf) b)) :=
  ⟨all_valid_of_all_eq (by with_unfolding_all rfl),
   by with_unfolding_all rfl,
   C3_category_sales okGen exampleRecords exampleInsights "Mocked AI summary"
     (all_valid_of_all_eq (by with_unfolding_all rfl))
     (by with_unfolding_all rfl)⟩

/-- C4: any input array containing at least one invalid record yields
400 with body `{ error: "Invalid sale record" }` for every external
collaborator `gen`: the fixed error body names neither the record nor the
field, and the response carries no insights. -/
theorem C4_invalid_rejected (gen : String → Except String String)
    (records : List RawRecord)
    (hinv : ∃ r ∈ records, invalidRecord r = true) :
    POST gen (Body.arr records) = ⟨400, RespBody.failure "Invalid sale record"⟩ := by
  obtain ⟨r, hr, hri⟩ := hinv
  have hlen : records.length ≠ 0 := by
    intro h0
    rw [List.length_eq_zero] at h0
    subst h0
    cases hr
  exact (post_badRecord_iff gen records hlen).mpr ⟨r, hr, hri⟩

/-- Witness for C4 at the test suite's missing-amount input. -/
theorem C4_invalid_rejected_witness :
    (∃ r ∈ [(⟨JSValue.str "Electronics", JSValue.undefined⟩ : RawRecord)],
      invalidRecord r = true) ∧
    POST okGen (Body.arr [⟨JSValue.str "Electronics", JSValue.undefined⟩]) =
      ⟨400, RespBody.failure "Invalid sale record"⟩ :=
  ⟨⟨⟨JSValue.str "Electronics", JSValue.undefined⟩, List.mem_singleton.mpr rfl,
      by with_unfolding_all rfl⟩,
   C4_invalid_rejected okGen [⟨JSValue.str "Electronics", JSValue.undefined⟩]
     ⟨⟨JSValue.str "Electronics", JSValue.undefined⟩, List.mem_singleton.mpr rfl,
      by with_unfolding_all rfl⟩⟩

theorem catSumQ_pos {records : List RawRecord} {r0 : RawRecord}
    (hval : ∀ r ∈ records, validSale r = true) (hmem : r0 ∈ records)
    (hpos : 0 < amountQ r0) : 0 < catSumQ records r0.keyOf := by
  have hmemf : r0 ∈ records.filter (fun r => r.keyOf == r0.keyOf) :=
    List.mem_filter.mpr ⟨hmem, by simp⟩
  have hx : amountQ r0 ∈ (records.filter (fun r => r.keyOf == r0.keyOf)).map amountQ :=
    List.mem_map_of_mem amountQ hmemf
  have hnn : ∀ x ∈ (records.filter (fun r => r.keyOf == r0.keyOf)).map amountQ, 0 ≤ x := by
    intro x hx2
    rcases List.mem_map.mp hx2 with ⟨r, hr, rfl⟩
    exact amountQ_nonneg_of_valid (hval r (List.mem_of_mem_filter hr))
  exact lt_of_lt_of_le hpos (List.single_le_sum hnn _ hx)

/-- C2 counterexample: on the valid one-record input with category `"A"`
and amount `0`, the handler returns 200 with `bestPerformingCategory`
equal to `""`, which is not a category of the input: no entry beats the
`['', 0]` sentinel under the strict comparison, so the claim that the
best category is always a category present in the input fails. -/
theorem C2_counterexample :
    ([(⟨JSValue.str "A", JSValue.numVal (JSNum.num 0)⟩ : RawRecord)].all validSale = true) ∧
    POST okGen (Body.arr [⟨JSValue.str "A", JSValue.numVal (JSNum.num 0)⟩]) =
      ⟨200, RespBody.success ⟨JSNum.num 0, JSNum.num 0, [("A", JSNum.num 0)], ""⟩
        "Mocked AI summary"⟩ ∧
    "" ∉ ([(⟨JSValue.str "A", JSValue.numVal (JSNum.num 0)⟩ : RawRecord)].map RawRecord.keyOf) :=
  ⟨by with_unfolding_all rfl, by with_unfolding_all rfl, by decide⟩

/-- C2 (amended): in a 200 response for valid records at least one of
which has positive amount, `bestPerformingCategory` is a category of the
input whose summed amount is maximal among all categories, and among the
categories attaining that maximal sum it is the one that the object's
key enumeration lists first (array-index keys in ascending numeric order
before the remaining keys in first-occurrence order, so first occurrence
breaks ties only among non-index names); when every amount is `0` the
field is instead the empty string, which names no input category. -/
theorem C2_best_category (gen : String → Except String String)
    (records : List RawRecord) (ins : Insights) (s : String)
    (hval : ∀ r ∈ records, validSale r = true)
    (hpos : ∃ r ∈ records, 0 < amountQ r)
    (h : POST gen (Body.arr records) = ⟨200, RespBody.success ins s⟩) :
    ins.bestPerformingCategory ∈ records.map RawRecord.keyOf ∧
    (∀ k ∈ records.map RawRecord.keyOf,
      catSumQ records k ≤ catSumQ records ins.bestPerformingCategory) ∧
    (∀ k ∈ records.map RawRecord.keyOf,
      catSumQ records k = catSumQ records ins.bestPerformingCategory →
      firstIdx ((entriesOf ins.categorySales).map Prod.fst) ins.bestPerformingCategory ≤
        firstIdx ((entriesOf ins.categorySales).map Prod.fst) k) := by
  obtain ⟨hlen, hins⟩ := post_200_inv gen records ins s h
  rw [insightsOf_of_valid records hval] at hins
  injection hins with hi
  have hbest : ins.bestPerformingCategory = (bestQ (csQ records)).1 := by rw [← hi]
  have hcs : ins.categorySales = mapValND (csQ records) := by rw [← hi]
  have hEkeys : (entriesOf ins.categorySales).map Prod.fst =
      (entriesOf (csQ records)).map Prod.fst := by
    rw [hcs, entriesOf_mapValND, mapValND_keys]
  have hperm : List.Perm (entriesOf (csQ records)) (csQ records) := entriesOf_perm _
  have hndcs : ((csQ records).map Prod.fst).Nodup := by
    rw [csQ_keys]
    exact firstSeen_nodup _
  have hndE : ((entriesOf (csQ records)).map Prod.fst).Nodup :=
    ((hperm.map Prod.fst).nodup_iff).mpr hndcs
  obtain ⟨r0, hr0, hr0pos⟩ := hpos
  have hk0keys : r0.keyOf ∈ (csQ records).map Prod.fst := by
    rw [csQ_keys]
    exact (firstSeen_mem _ _).mpr (List.mem_map_of_mem RawRecord.keyOf hr0)
  obtain ⟨v0, hv0⟩ := exists_entry_of_mem_keys hk0keys
  have hv0val : v0 = catSumQ records r0.keyOf := csQ_value hv0
  have hv0pos : 0 < v0 := by
    rw [hv0val]
    exact catSumQ_pos hval hr0 hr0pos
  have hv0E : (r0.keyOf, v0) ∈ entriesOf (csQ records) := hperm.mem_iff.mpr hv0
  rcases foldl_pickMax_spec (entriesOf (csQ records)) ("", 0) with ⟨heq, hle⟩ |
    ⟨l1, l2, hsplit, hlt, hl1, hl2⟩
  · have hc : v0 ≤ 0 := hle (r0.keyOf, v0) hv0E
    exact absurd hv0pos (not_lt.mpr hc)
  · have hb : (entriesOf (csQ records)).foldl pickMax ("", 0) = bestQ (csQ records) := rfl
    rw [hb] at hsplit hlt hl1 hl2
    have hresmemE : bestQ (csQ records) ∈ entriesOf (csQ records) := by
      have hm : bestQ (csQ records) ∈ l1 ++ bestQ (csQ records) :: l2 :=
        List.mem_append_right _ (List.mem_cons_self _ _)
      rwa [← hsplit] at hm
    have hresmem : bestQ (csQ records) ∈ csQ records := hperm.mem_iff.mp hresmemE
    have hresval : (bestQ (csQ records)).2 = catSumQ records (bestQ (csQ records)).1 :=
      csQ_value hresmem
    have hbestmemkeys : (bestQ (csQ records)).1 ∈ (csQ records).map Prod.fst :=
      List.mem_map_of_mem Prod.fst hresmem
    have hmem1 : ins.bestPerformingCategory ∈ records.map RawRecord.keyOf := by
      rw [hbest]
      rw [csQ_keys] at hbestmemkeys
      exact (firstSeen_mem _ _).mp hbestmemkeys
    have hmax : ∀ k ∈ records.map RawRecord.keyOf,
        catSumQ records k ≤ catSumQ records (bestQ (csQ records)).1 := by
      intro k hk
      have hkk : k ∈ (csQ records).map Prod.fst := by
        rw [csQ_keys]
        exact (firstSeen_mem _ _).mpr hk
      obtain ⟨v, hv⟩ := exists_entry_of_mem_keys hkk
      have hvval : v = catSumQ records k := csQ_value hv
      rw [← hvval, ← hresval]
      have hmemcases : (k, v) ∈ l1 ++ bestQ (csQ records) :: l2 := by
        have hm := hperm.mem_iff.mpr hv
        rwa [hsplit] at hm
      rcases List.mem_append.mp hmemcases with h1 | h12
      · exact le_of_lt (hl1 _ h1)
      · rcases List.mem_cons.mp h12 with heq2 | h2
        · exact le_of_eq (congrArg Prod.snd heq2)
        · exact hl2 _ h2
    have hfirst : ∀ k ∈ records.map RawRecord.keyOf,
        catSumQ records k = catSumQ records (bestQ (csQ records)).1 →
        firstIdx ((entriesOf (csQ records)).map Prod.fst) (bestQ (csQ records)).1 ≤
          firstIdx ((entriesOf (csQ records)).map Prod.fst) k := by
      intro k hk hkeq
      have hkk : k ∈ (csQ records).map Prod.fst := by
        rw [csQ_keys]
        exact (firstSeen_mem _ _).mpr hk
      obtain ⟨v, hv⟩ := exists_entry_of_mem_keys hkk
      have hvval : v = catSumQ records k := csQ_value hv
      have hveq : v = (bestQ (csQ records)).2 := by
        rw [hvval, hkeq, ← hresval]
      have hmemcases : (k, v) ∈ l1 ++ bestQ (csQ records) :: l2 := by
        have hm := hperm.mem_iff.mpr hv
        rwa [hsplit] at hm
      rcases List.mem_append.mp hmemcases with h1 | h12
      · have hcontra := hl1 _ h1
        rw [hveq] at hcontra
        exact absurd hcontra (lt_irrefl _)
      · rcases List.mem_cons.mp h12 with heq2 | h2
        · have hk2 : k = (bestQ (csQ records)).1 := congrArg Prod.fst heq2
          rw [hk2]
        · have hpw := nodup_pairwise_firstIdx _ hndE
          have hkeyssplit : (entriesOf (csQ records)).map Prod.fst =
              l1.map Prod.fst ++ (bestQ (csQ records)).1 :: l2.map Prod.fst := by
            conv_lhs => rw [hsplit]
            simp
          rw [hkeyssplit] at hpw
          have hpw2 := (List.pairwise_append.mp hpw).2.1
          have hforall := (List.pairwise_cons.mp hpw2).1
          have hkmem2 : k ∈ l2.map Prod.fst := List.mem_map_of_mem Prod.fst h2
          have hlt2 := hforall k hkmem2
          rw [hkeyssplit]
          exact le_of_lt hlt2
    refine ⟨hmem1, ?_, ?_⟩
    · rw [hbest]
      exact hmax
    · rw [hbest, hEkeys]
      exact hfirst

/-- Witness for the amended C2 at the test suite's worked example. -/
theorem C2_best_category_witness :
    (∀ r ∈ exampleRecords, validSale r = true) ∧
    (∃ r ∈ exampleRecords, 0 < amountQ r) ∧
    POST okGen (Body.arr exampleRecords) =
      ⟨200, RespBody.success exampleInsights "Mocked AI summary"⟩ ∧
    (exampleInsights.bestPerformingCategory ∈ exampleRecords.map RawRecord.keyOf ∧
     (∀ k ∈ exampleRecords.map RawRecord.keyOf,
       catSumQ exampleRecords k ≤
         catSumQ exampleRecords exampleInsights.bestPerformingCategory) ∧
     (∀ k ∈ exampleRecords.map RawRecord.keyOf,
       catSumQ exampleRecords k =
         catSumQ exampleRecords exampleInsights.bestPerformingCategory →
       firstIdx ((entriesOf exampleInsights.categorySales).map Prod.fst)
           exampleInsights.bestPerformingCategory ≤
         firstIdx ((entriesOf exampleInsights.categorySales).map Prod.fst) k)) :=
  ⟨all_valid_of_all_eq (by with_unfolding_all rfl),
   ⟨⟨JSValue.str "Electronics", JSValue.numVal (JSNum.num 100)⟩,
     List.mem_cons_self _ _, by norm_num [amountQ]⟩,
   by with_unfolding_all rfl,
   C2_best_category okGen exampleRecords exampleInsights "Mocked AI summary"
     (all_valid_of_all_eq (by with_unfolding_all rfl))
     ⟨⟨JSValue.str "Electronics", JSValue.numVal (JSNum.num 100)⟩,
       List.mem_cons_self _ _, by norm_num [amountQ]⟩
     (by with_unfolding_all rfl)⟩

/-- C5 counterexample: a record whose category is the non-string value
`true` (truthy) passes validation and is aggregated under the key
`"true"`, refuting the claim that every record whose category is not a
string is rejected. -/
theorem C5_counterexample :
    invalidRecord ⟨JSValue.bool true, JSValue.numVal (JSNum.num 5)⟩ = false ∧
    POST okGen (Body.arr [⟨JSValue.bool true, JSValue.numVal (JSNum.num 5)⟩]) =
      ⟨200, RespBody.success ⟨JSNum.num 5, JSNum.num 5, [("true", JSNum.num 5)], "true"⟩
        "Mocked AI summary"⟩ :=
  ⟨by with_unfolding_all rfl, by with_unfolding_all rfl⟩

/-- C5 (amended): the category check is JS truthiness only: every record
whose category is missing, empty, or otherwise falsy is rejected with
"Invalid sale record", and acceptance requires a truthy category, but a
truthy non-string category also passes. -/
theorem C5_truthy_category (gen : String → Except String String)
    (records : List RawRecord) (r : RawRecord)
    (hmem : r ∈ records) (hfalsy : r.category.truthy = false) :
    POST gen (Body.arr records) = ⟨400, RespBody.failure "Invalid sale record"⟩ ∧
    ∀ r2 : RawRecord, invalidRecord r2 = false → r2.category.truthy = true := by
  constructor
  · have hinv : invalidRecord r = true := by
      rw [invalidRecord, hfalsy]
      rfl
    have hlen : records.length ≠ 0 := by
      intro h0
      rw [List.length_eq_zero] at h0
      subst h0
      cases hmem
    exact (post_badRecord_iff gen records hlen).mpr ⟨r, hmem, hinv⟩
  · intro r2 h2
    simp only [invalidRecord, Bool.or_eq_false_iff, Bool.not_eq_false'] at h2
    exact h2.1.1

/-- Witness for the amended C5 at an empty-category record. -/
theorem C5_truthy_category_witness :
    ((⟨JSValue.str "", JSValue.numVal (JSNum.num 10)⟩ : RawRecord) ∈
      [(⟨JSValue.str "", JSValue.numVal (JSNum.num 10)⟩ : RawRecord)]) ∧
    (⟨JSValue.str "", JSValue.numVal (JSNum.num 10)⟩ : RawRecord).category.truthy = false ∧
    (POST okGen (Body.arr [⟨JSValue.str "", JSValue.numVal (JSNum.num 10)⟩]) =
       ⟨400, RespBody.failure "Invalid sale record"⟩ ∧
     ∀ r2 : RawRecord, invalidRecord r2 = false → r2.category.truthy = true) :=
  ⟨List.mem_singleton.mpr rfl, by with_unfolding_all rfl,
   C5_truthy_category okGen _ _ (List.mem_singleton.mpr rfl)
     (by with_unfolding_all rfl)⟩

/-- C6: with all categories truthy, the handler answers 400
"Invalid sale record" exactly when some record's amount is not a number
or is a negative number; every amount that is a number `≥ 0` (including
`NaN`, which is a number and not `< 0`) passes the amount check. -/
theorem C6_amount_check (gen : String → Except String String)
    (records : List RawRecord)
    (hlen : records.length ≠ 0)
    (hcat : ∀ r ∈ records, r.category.truthy = true) :
    POST gen (Body.arr records) = ⟨400, RespBody.failure "Invalid sale record"⟩ ↔
      ∃ r ∈ records, r.amount.isNumber = false ∨ r.amount.ltZero = true := by
  rw [post_badRecord_iff gen records hlen]
  constructor
  · rintro ⟨r, hr, hinv⟩
    refine ⟨r, hr, ?_⟩
    rw [invalidRecord, hcat r hr] at hinv
    simpa using hinv
  · rintro ⟨r, hr, hbad⟩
    refine ⟨r, hr, ?_⟩
    rw [invalidRecord]
    rcases hbad with hb | hb <;> simp [hb]

/-- Witness for C6 at a negative-amount record. -/
theorem C6_amount_check_witness :
    ([(⟨JSValue.str "A", JSValue.numVal (JSNum.num (-1))⟩ : RawRecord)].length ≠ 0) ∧
    (∀ r ∈ [(⟨JSValue.str "A", JSValue.numVal (JSNum.num (-1))⟩ : RawRecord)],
      r.category.truthy = true) ∧
    (POST okGen (Body.arr [⟨JSValue.str "A", JSValue.numVal (JSNum.num (-1))⟩]) =
        ⟨400, RespBody.failure "Invalid sale record"⟩ ↔
      ∃ r ∈ [(⟨JSValue.str "A", JSValue.numVal (JSNum.num (-1))⟩ : RawRecord)],
        r.amount.isNumber = false ∨ r.amount.ltZero = true) :=
  ⟨by decide,
   by
     intro r hr
     rw [List.mem_singleton.mp hr]
     with_unfolding_all rfl,
   C6_amount_check okGen [⟨JSValue.str "A", JSValue.numVal (JSNum.num (-1))⟩]
     (by decide)
     (by
       intro r hr
       rw [List.mem_singleton.mp hr]
       with_unfolding_all rfl)⟩

/-- C7: a non-array payload and the empty array are both answered with
400 and body `{ error: "Invalid input: Expected an array of sales
records" }`, for every external collaborator (so before any per-record
work). -/
theorem C7_array_shape (gen : String → Except String String) :
    POST gen Body.nonArray =
      ⟨400, RespBody.failure "Invalid input: Expected an array of sales records"⟩ ∧
    POST gen (Body.arr []) =
      ⟨400, RespBody.failure "Invalid input: Expected an array of sales records"⟩ :=
  ⟨rfl, rfl⟩

/-- C8: on any input whose validation and aggregation succeeded, if the
external generative-text call raises an error then the response is 500
with the constant body `{ error: "Internal Server Error" }`, for every
raised error `e` (so no error detail and no insights are exposed). -/
theorem C8_external_error (gen : String → Except String String)
    (records : List RawRecord) (ins : Insights) (e : String)
    (hlen : records.length ≠ 0)
    (hins : insightsOf records = some ins)
    (herr : gen (aiPrompt ins) = Except.error e) :
    POST gen (Body.arr records) = ⟨500, RespBody.failure "Internal Server Error"⟩ := by
  rw [post_of_insights_some gen records ins hlen hins, herr]

/-- Witness for C8 with an always-failing external call. -/
theorem C8_external_error_witness :
    (([(⟨JSValue.str "Electronics", JSValue.numVal (JSNum.num 100)⟩ : RawRecord)]).length ≠ 0) ∧
    insightsOf [⟨JSValue.str "Electronics", JSValue.numVal (JSNum.num 100)⟩] =
      some ⟨JSNum.num 100, JSNum.num 100, [("Electronics", JSNum.num 100)], "Electronics"⟩ ∧
    errGen (aiPrompt ⟨JSNum.num 100, JSNum.num 100,
      [("Electronics", JSNum.num 100)], "Electronics"⟩) = Except.error "API failure" ∧
    POST errGen (Body.arr [⟨JSValue.str "Electronics", JSValue.numVal (JSNum.num 100)⟩]) =
      ⟨500, RespBody.failure "Internal Server Error"⟩ :=
  ⟨by decide, by with_unfolding_all rfl, rfl,
   C8_external_error errGen [⟨JSValue.str "Electronics", JSValue.numVal (JSNum.num 100)⟩]
     ⟨JSNum.num 100, JSNum.num 100, [("Electronics", JSNum.num 100)], "Electronics"⟩
     "API failure" (by decide) (by with_unfolding_all rfl) rfl⟩

/-- C9: on any input whose validation succeeded, the handler consults the
external service exactly on the fixed template embedding the four insight
values: `totalSales` and `averageSale` rendered with `toFixed(2)`, the
best-category name, and the category breakdown serialized as indented
JSON, followed by the business-friendly-summary instruction; the response
is shaped from that single call's outcome. -/
theorem C9_prompt_template (gen : String → Except String String)
    (records : List RawRecord) (ins : Insights)
    (hlen : records.length ≠ 0)
    (hins : insightsOf records = some ins) :
    POST gen (Body.arr records) =
      match gen ("\n      Based on the sales data, here are some key insights:\n      - Total sales: $"
          ++ ins.totalSales.toFixed2
          ++ "\n      - Average sales per transaction: $"
          ++ ins.averageSale.toFixed2
          ++ "\n      - Best performing product category: "
          ++ ins.bestPerformingCategory
          ++ "\n      - Breakdown per category: "
          ++ jsonStringify2 ins.categorySales
          ++ "\n\n      Summarize this data in a business-friendly tone.\n    ") with
      | .error _ => ⟨500, RespBody.failure "Internal Server Error"⟩
      | .ok summary => ⟨200, RespBody.success ins summary⟩ :=
  post_of_insights_some gen records ins hlen hins

/-- Witness for C9 at the test suite's worked example. -/
theorem C9_prompt_template_witness :
    (exampleRecords.length ≠ 0) ∧
    insightsOf exampleRecords = some exampleInsights ∧
    POST okGen (Body.arr exampleRecords) =
      match okGen ("\n      Based on the sales data, here are some key insights:\n      - Total sales: $"
          ++ exampleInsights.totalSales.toFixed2
          ++ "\n      - Average sales per transaction: $"
          ++ exampleInsights.averageSale.toFixed2
          ++ "\n      - Best performing product category: "
          ++ exampleInsights.bestPerformingCategory
          ++ "\n      - Breakdown per category: "
          ++ jsonStringify2 exampleInsights.categorySales
          ++ "\n\n      Summarize this data in a business-friendly tone.\n    ") with
      | .error _ => ⟨500, RespBody.failure "Internal Server Error"⟩
      | .ok summary => ⟨200, RespBody.success exampleInsights summary⟩ :=
  ⟨by decide, by with_unfolding_all rfl,
   C9_prompt_template okGen exampleRecords exampleInsights (by decide)
     (by with_unfolding_all rfl)⟩

/-- C10: a record whose amount is `NaN` passes field validation (`NaN`
has type number and `NaN < 0` is false), and on the input
`[{category:"A", amount:NaN}]` the handler proceeds past validation and
returns insights whose `totalSales` and `averageSale` are `NaN` instead
of rejecting the request with 400. -/
theorem C10_nan_amount :
    invalidRecord ⟨JSValue.str "A", JSValue.numVal JSNum.nan⟩ = false ∧
    POST okGen (Body.arr [⟨JSValue.str "A", JSValue.numVal JSNum.nan⟩]) =
      ⟨200, RespBody.success ⟨JSNum.nan, JSNum.nan, [("A", JSNum.nan)], ""⟩
        "Mocked AI summary"⟩ :=
  ⟨by with_unfolding_all rfl, by with_unfolding_all rfl⟩

end NodeAI
